import Mathlib

/-!
Verification of the `strmatch` pattern compiler (src/src/lib.rs).

The crate is a proc-macro that parses a small pattern DSL into a `MacroInput`
(an ordered list of `Capture`s plus an optional bracketed `EndCapture`) and
lowers it to a Rust slice pattern over bytes.  The development below shallowly
embeds the data model, the suffix rule (`process_suffix`), the token-level
parser (`impl Parse for Capture` / `EndCapture` / `MacroInput`), the lowering
(`impl ToTokens`), and the semantics of the emitted slice pattern, and proves
the specification's claims about them.
-/

namespace Strmatch

/-- The `Capture` AST, mirroring `enum Capture` (lib.rs 142-149).
`ByteStr` holds the byte values of a `LitByteStr`, `Byte` the value of a
`LitByte`, `Str` the text of a `LitStr`, `Char` the Unicode code point of a
`LitChar`; `reps` is the repetition count extracted from the literal suffix. -/
inductive Capture where
  | ByteStr (bytes : List Nat) (reps : Nat)
  | Byte (value : Nat) (reps : Nat)
  | Str (text : String) (reps : Nat)
  | Char (cp : Nat) (reps : Nat)
  | Ident (name : String)
  | Underscore
deriving DecidableEq

/-- The `EndCapture` AST, mirroring `enum EndCapture` (lib.rs 105-108). -/
inductive EndCapture where
  | Ident (name : String)
  | Underscore
deriving DecidableEq

/-- The root AST, mirroring `struct MacroInput` (lib.rs 73-76). -/
structure MacroInput where
  literals : List Capture
  endc : Option EndCapture
deriving DecidableEq

/-- Model of Rust's `str::parse::<usize>` (`usize::from_str`): an optional
leading plus sign followed by one or more ASCII digits, value below 2^64
(usize is 64-bit on the supported targets). -/
def parseUsize (s : List Char) : Option Nat :=
  let digits := match s with
    | '+' :: rest => rest
    | _ => s
  if digits.isEmpty then none
  else if digits.all Char.isDigit then
    let n := digits.foldl (fun acc c => acc * 10 + (c.toNat - 48)) 0
    if n < 2 ^ 64 then some n else none
  else none

/-- `process_suffix` (lib.rs 152-164): empty suffix means one repetition; a
suffix starting with `x` is parsed as an integer repetition count (with the
exact error message from the source on failure); any other suffix errors.
Rust `&str` suffixes are modelled as `List Char`. -/
def process_suffix (suffix : List Char) : Except String Nat :=
  match suffix with
  | [] => .ok 1
  | c :: rest =>
    if c = 'x' then
      match parseUsize rest with
      | some n => .ok n
      | none => .error ("error parsing " ++ String.mk rest ++ " into an integer")
    else .error ("suffix did not start with `x`")

/-- One token of the macro's input stream, as classified by the collaborator
(syn).  `litByteStr`/`litStr`/`litByte`/`litChar` carry the literal's value
and its (possibly empty) suffix; `bracket` is a square-bracket-delimited
group; `other` stands for any token matched by none of the six lookahead
classes and not a square-bracket group (punctuation, keywords, other literal
kinds, non-bracket groups). -/
inductive Tok where
  | litByteStr (bytes : List Nat) (suffix : List Char)
  | litStr (text : String) (suffix : List Char)
  | litByte (value : Nat) (suffix : List Char)
  | litChar (cp : Nat) (suffix : List Char)
  | ident (name : String)
  | underscore
  | bracket (inner : List Tok)
  | other

/-- The six lexical classes probed by `lookahead.peek` in
`impl Parse for Capture` (lib.rs 166-220). -/
inductive TokClass where
  | ident
  | underscore
  | litByte
  | litByteStr
  | litChar
  | litStr
deriving DecidableEq

/-- `lookahead.peek(C)`: whether a token belongs to a lexical class.  In syn
each token belongs to at most one of the six classes. -/
def peekClass (c : TokClass) (t : Tok) : Bool :=
  match c, t with
  | .ident, .ident _ => true
  | .underscore, .underscore => true
  | .litByte, .litByte _ _ => true
  | .litByteStr, .litByteStr _ _ => true
  | .litChar, .litChar _ _ => true
  | .litStr, .litStr _ _ => true
  | _, _ => false

/-- Outcome of attempting one lookahead branch of `Capture::parse` on the
head token: success, a recoverable `syn::Result` error, or a
`proc_macro_error::abort!` that kills the whole expansion (lib.rs 178, 189,
200, 211). -/
inductive CapAttempt where
  | ok (c : Capture)
  | err
  | abort (msg : String)

/-- The body shared by the four literal branches of `Capture::parse`:
run `process_suffix` on the literal's suffix and either build the capture or
`abort!` with the suffix error message. -/
def suffixAttempt (mk : Nat → Capture) (suf : List Char) : CapAttempt :=
  match process_suffix suf with
  | .ok reps => .ok (mk reps)
  | .error e => .abort e

/-- The action taken by `Capture::parse` once `lookahead.peek` has selected a
class for the head token (each branch consumes exactly that one token). -/
def parseAt (c : TokClass) (t : Tok) : CapAttempt :=
  match c, t with
  | .ident, .ident n => .ok (.Ident n)
  | .underscore, .underscore => .ok .Underscore
  | .litByte, .litByte v suf => suffixAttempt (Capture.Byte v) suf
  | .litByteStr, .litByteStr bs suf => suffixAttempt (Capture.ByteStr bs) suf
  | .litChar, .litChar cp suf => suffixAttempt (Capture.Char cp) suf
  | .litStr, .litStr s suf => suffixAttempt (Capture.Str s) suf
  | _, _ => .err

/-- The `if lookahead.peek .. else if ..` chain of `Capture::parse`: try each
class in order on the head token; if none matches, fail with
`lookahead.error()` (consuming nothing). -/
def chain (order : List TokClass) (t : Tok) : CapAttempt :=
  match order with
  | [] => .err
  | c :: cs => if peekClass c t then parseAt c t else chain cs t

/-- The class order actually probed by `Capture::parse` (lib.rs 169-217):
identifier, wildcard, byte literal, byte-string literal, character literal,
string literal. -/
def capOrder : List TokClass :=
  [.ident, .underscore, .litByte, .litByteStr, .litChar, .litStr]

/-- Result of `input.parse::<Capture>()`: on success the capture and the
remaining stream; on recoverable error the stream as the parser left it;
or an `abort!`. -/
inductive CapResult where
  | ok (c : Capture) (rest : List Tok)
  | err (rest : List Tok)
  | abort (msg : String)

/-- `impl Parse for Capture` (lib.rs 166-220) over the token stream. -/
def parseCapture (toks : List Tok) : CapResult :=
  match toks with
  | [] => .err []
  | t :: rest =>
    match chain capOrder t with
    | .ok c => .ok c rest
    | .err => .err (t :: rest)
    | .abort m => .abort m

/-- Modelled from the spec's words (refinement comparison): the capture
parser that probes the lexical classes in the priority order stated by the
specification — byte-string literal, text-string literal, single-byte
literal, single-character literal, identifier, wildcard marker. -/
def specOrder : List TokClass :=
  [.litByteStr, .litStr, .litByte, .litChar, .ident, .underscore]

/-- Modelled from the spec's words (refinement comparison): `Capture::parse`
with the specification's stated lookahead priority order. -/
def parseCaptureSpecOrder (toks : List Tok) : CapResult :=
  match toks with
  | [] => .err []
  | t :: rest =>
    match chain specOrder t with
    | .ok c => .ok c rest
    | .err => .err (t :: rest)
    | .abort m => .abort m

/-- The `while let Ok(lit) = input.parse::<Capture>()` loop of
`MacroInput::parse` (lib.rs 80-84): collect captures until one attempt
fails, returning the captures and the untouched remaining stream, or
propagating an `abort!`. -/
def captureLoop : List Tok → Except String (List Capture × List Tok)
  | [] => .ok ([], [])
  | t :: rest =>
    match chain capOrder t with
    | .ok c =>
      match captureLoop rest with
      | .ok (cs, r) => .ok (c :: cs, r)
      | .error m => .error m
    | .err => .ok ([], t :: rest)
    | .abort m => .error m

/-- `impl Parse for EndCapture` (lib.rs 110-121): one `_` or one identifier
(probed in that order), anything else is a lookahead error. -/
def parseEndCapture (toks : List Tok) : Option (EndCapture × List Tok) :=
  match toks with
  | .underscore :: rest => some (.Underscore, rest)
  | .ident n :: rest => some (.Ident n, rest)
  | _ => none

/-- Result of `MacroInput::parse` (lib.rs 78-101).  `ok` carries the AST,
the leftover of the outer stream, and the leftover inside the bracketed
group; syn reports either leftover as an unexpected-token error at the
`parse_macro_input!` boundary, which `strmatch` below checks. -/
inductive MIResult where
  | ok (mi : MacroInput) (outerRest : List Tok) (innerRest : List Tok)
  | err
  | abort (msg : String)

/-- `impl Parse for MacroInput` (lib.rs 78-101): the capture loop, then
either end-of-input (no EndCapture) or a mandatory square-bracket group
(`bracketed!`, lib.rs 92) whose content must start with an `EndCapture`. -/
def parseMacroInput (toks : List Tok) : MIResult :=
  match captureLoop toks with
  | .error m => .abort m
  | .ok (caps, rest) =>
    match rest with
    | [] => .ok ⟨caps, none⟩ [] []
    | Tok.bracket inner :: rest2 =>
      match parseEndCapture inner with
      | some (e, innerRest) => .ok ⟨caps, some e⟩ rest2 innerRest
      | none => .err
    | _ :: _ => .err

/-- One atomic position of the emitted slice pattern: a fixed byte value
(`b'a',`), a single-element binding (`name,`), or a single-element wildcard
(`_,`). -/
inductive ElemMatcher where
  | fixed (b : Nat)
  | named (name : String)
  | wild
deriving DecidableEq

/-- The emitted tail of the slice pattern: `name @ ..,` or `..,`
(`impl ToTokens for EndCapture`, lib.rs 123-130). -/
inductive TailMatcher where
  | named (name : String)
  | discard
deriving DecidableEq

/-- The emitted slice pattern `[e1, e2, ..., (tail)?]`. -/
structure MatchSpec where
  elems : List ElemMatcher
  tail : Option TailMatcher
deriving DecidableEq

/-- UTF-8 encoding of a Unicode code point, as `str::as_bytes` exposes it. -/
def utf8EncodeCp (c : Nat) : List Nat :=
  if c < 128 then [c]
  else if c < 2048 then [192 + c / 64, 128 + c % 64]
  else if c < 65536 then [224 + c / 4096, 128 + c / 64 % 64, 128 + c % 64]
  else [240 + c / 262144, 128 + c / 4096 % 64, 128 + c / 64 % 64, 128 + c % 64]

/-- The byte sequence of a Rust string literal's value (`String::as_bytes`,
used at lib.rs 242). -/
def strBytes (s : String) : List Nat :=
  (s.data.map (fun c => utf8EncodeCp c.toNat)).flatten

/-- `impl ToTokens for Capture` (lib.rs 223-257): the element matchers one
capture contributes.  Byte strings and strings emit `reps` consecutive
copies of their byte run; bytes and chars emit `reps` fixed matchers, a char
being cast to `u8` (truncation mod 256, lib.rs 249); identifiers and `_`
emit one matcher. -/
def Capture.toMatchers : Capture → List ElemMatcher
  | .ByteStr bs reps => ((List.replicate reps bs).flatten).map ElemMatcher.fixed
  | .Byte v reps => List.replicate reps (ElemMatcher.fixed v)
  | .Str s reps => ((List.replicate reps (strBytes s)).flatten).map ElemMatcher.fixed
  | .Char cp reps => List.replicate reps (ElemMatcher.fixed (cp % 256))
  | .Ident n => [ElemMatcher.named n]
  | .Underscore => [ElemMatcher.wild]

/-- `impl ToTokens for EndCapture` (lib.rs 123-130). -/
def EndCapture.toTail : EndCapture → TailMatcher
  | .Ident n => .named n
  | .Underscore => .discard

/-- The lowering performed by `strmatch` (lib.rs 64-70): concatenate the
captures' matchers and append the optional tail. -/
def lowerMacroInput (mi : MacroInput) : MatchSpec :=
  ⟨(mi.literals.map Capture.toMatchers).flatten, mi.endc.map EndCapture.toTail⟩

/-- Overall expansion outcome of the proc macro: an emitted slice pattern,
a syn parse error surfaced by `parse_macro_input!`, or a
`proc_macro_error` abort. -/
inductive Expansion where
  | ok (spec : MatchSpec)
  | err
  | abort (msg : String)

/-- `strmatch` (lib.rs 58-71): empty input expands to `[]` without parsing;
otherwise parse a `MacroInput` — `parse_macro_input!` additionally rejects
any leftover tokens, outer or inside the bracketed group — and lower it. -/
def strmatch (toks : List Tok) : Expansion :=
  match toks with
  | [] => .ok ⟨[], none⟩
  | _ :: _ =>
    match parseMacroInput toks with
    | .ok mi [] [] => .ok (lowerMacroInput mi)
    | .ok _ _ _ => .err
    | .err => .err
    | .abort _m => .abort _m

/-- Whether one element matcher accepts one byte (Rust pattern semantics:
a literal matches its own value; a binding or `_` matches anything). -/
def elemMatch : ElemMatcher → Nat → Bool
  | .fixed v, b => b == v
  | .named _, _ => true
  | .wild, _ => true

/-- Run the fixed-position matchers against the front of the sequence,
returning the unconsumed remainder on success (Rust slice-pattern
semantics of `[m1, ..., mk, ...rest]`). -/
def consumeElems : List ElemMatcher → List Nat → Option (List Nat)
  | [], s => some s
  | _ :: _, [] => none
  | m :: ms, b :: bs => if elemMatch m b then consumeElems ms bs else none

/-- Whether the emitted slice pattern matches a byte sequence: with no tail
the matchers must consume the whole sequence; with a tail (`..` or
`name @ ..`) any remainder is absorbed. -/
def specMatches (spec : MatchSpec) (s : List Nat) : Bool :=
  match spec.tail with
  | none =>
    match consumeElems spec.elems s with
    | some [] => true
    | _ => false
  | some _ => (consumeElems spec.elems s).isSome

/-- The binding produced by a named tail (`name @ ..`) on a match: the
remainder of the sequence after the fixed positions. -/
def tailBinding (spec : MatchSpec) (s : List Nat) : Option (String × List Nat) :=
  match spec.tail with
  | some (.named n) => (consumeElems spec.elems s).map (fun r => (n, r))
  | _ => none

/-- Per-position agreement between the fixed matchers and a sequence, at
every index both possess. -/
def pointwise (ms : List ElemMatcher) (s : List Nat) : Prop :=
  ∀ (i : Nat) (h1 : i < ms.length) (h2 : i < s.length), elemMatch ms[i] s[i] = true

/-- The per-capture element count the specification's round-trip length
property describes: element count of the literal (or 1 for named/wildcard)
times its repetitions. -/
def Capture.weight : Capture → Nat
  | .ByteStr bs reps => bs.length * reps
  | .Byte _ reps => reps
  | .Str s reps => (strBytes s).length * reps
  | .Char _ reps => reps
  | .Ident _ => 1
  | .Underscore => 1

/-- Sum of the captures' weights: the fixed length the specification
ascribes to a tail-less pattern. -/
def totalWeight (caps : List Capture) : Nat :=
  (caps.map Capture.weight).sum

theorem pointwise_nil (s : List Nat) : pointwise [] s := by
  intro i h1 _h2
  exact absurd h1 (Nat.not_lt_zero i)

theorem pointwise_cons {m : ElemMatcher} {ms : List ElemMatcher} {b : Nat} {bs : List Nat} :
    pointwise (m :: ms) (b :: bs) ↔ elemMatch m b = true ∧ pointwise ms bs := by
  constructor
  · intro h
    refine ⟨h 0 (Nat.succ_pos _) (Nat.succ_pos _), ?_⟩
    intro i h1 h2
    simpa using h (i + 1) (Nat.succ_lt_succ h1) (Nat.succ_lt_succ h2)
  · rintro ⟨h0, h⟩ i h1 h2
    cases i with
    | zero => simpa using h0
    | succ j =>
      simpa using h j (Nat.lt_of_succ_lt_succ h1) (Nat.lt_of_succ_lt_succ h2)

theorem consumeElems_eq_some_iff (ms : List ElemMatcher) (s r : List Nat) :
    consumeElems ms s = some r ↔
      ms.length ≤ s.length ∧ pointwise ms s ∧ r = s.drop ms.length := by
  induction ms generalizing s r with
  | nil =>
    simp only [consumeElems, Option.some.injEq, List.length_nil, Nat.zero_le, true_and,
      List.drop_zero]
    constructor
    · intro h
      exact ⟨pointwise_nil s, h.symm⟩
    · rintro ⟨_, h⟩
      exact h.symm
  | cons m ms ih =>
    cases s with
    | nil => simp [consumeElems]
    | cons b bs =>
      by_cases hm : elemMatch m b = true
      · simp [consumeElems, hm, ih, pointwise_cons, Nat.succ_le_succ_iff]
      · simp [consumeElems, hm, pointwise_cons]

theorem specMatches_none_iff (elems : List ElemMatcher) (s : List Nat) :
    specMatches ⟨elems, none⟩ s = true ↔ consumeElems elems s = some [] := by
  cases h : consumeElems elems s with
  | none => simp [specMatches, h]
  | some l =>
    cases l with
    | nil => simp [specMatches, h]
    | cons a l => simp [specMatches, h]

theorem specMatches_some_iff (elems : List ElemMatcher) (t : TailMatcher) (s : List Nat) :
    specMatches ⟨elems, some t⟩ s = true ↔ elems.length ≤ s.length ∧ pointwise elems s := by
  simp only [specMatches, Option.isSome_iff_exists]
  constructor
  · rintro ⟨r, hr⟩
    have h := (consumeElems_eq_some_iff elems s r).mp hr
    exact ⟨h.1, h.2.1⟩
  · rintro ⟨h1, h2⟩
    exact ⟨s.drop elems.length, (consumeElems_eq_some_iff elems s _).mpr ⟨h1, h2, rfl⟩⟩

theorem length_toMatchers (c : Capture) : (Capture.toMatchers c).length = c.weight := by
  cases c <;>
    simp [Capture.toMatchers, Capture.weight, List.length_flatten, List.map_replicate,
      List.sum_replicate, smul_eq_mul, Nat.mul_comm]

theorem length_lower (caps : List Capture) :
    ((caps.map Capture.toMatchers).flatten).length = totalWeight caps := by
  induction caps with
  | nil => rfl
  | cons c cs ih =>
    simp only [List.map_cons, List.flatten_cons, List.length_append, ih, totalWeight,
      List.sum_cons, length_toMatchers]

theorem parseEndCapture_eq_some (inner : List Tok) (e : EndCapture) (ir : List Tok) :
    parseEndCapture inner = some (e, ir) ↔
      (inner = Tok.underscore :: ir ∧ e = EndCapture.Underscore) ∨
      (∃ n, inner = Tok.ident n :: ir ∧ e = EndCapture.Ident n) := by
  cases inner with
  | nil => simp [parseEndCapture]
  | cons t rest =>
    cases t <;> simp [parseEndCapture] <;> aesop

theorem strmatch_cons (t : Tok) (ts : List Tok) :
    strmatch (t :: ts) =
      (match parseMacroInput (t :: ts) with
        | .ok mi [] [] => Expansion.ok (lowerMacroInput mi)
        | .ok _ _ _ => .err
        | .err => .err
        | .abort m => .abort m) := rfl

/-- C1: for every pattern with no EndCapture, the lowered specification has
no tail matcher, its element-matcher count is the sum over all captures of
(element count of the literal, or 1 for named/wildcard) times its
repetitions, and it matches a byte sequence iff the sequence has exactly
that length and every position agrees with its matcher. -/
theorem no_end_capture_exact_length (caps : List Capture) (s : List Nat) :
    (lowerMacroInput ⟨caps, none⟩).tail = none ∧
    (lowerMacroInput ⟨caps, none⟩).elems.length = totalWeight caps ∧
    (specMatches (lowerMacroInput ⟨caps, none⟩) s = true ↔
      s.length = totalWeight caps ∧ pointwise (lowerMacroInput ⟨caps, none⟩).elems s) := by
  have hlen : ((caps.map Capture.toMatchers).flatten).length = totalWeight caps :=
    length_lower caps
  refine ⟨rfl, hlen, ?_⟩
  constructor
  · intro h
    have h1 := (consumeElems_eq_some_iff ((caps.map Capture.toMatchers).flatten) s []).mp
      ((specMatches_none_iff ((caps.map Capture.toMatchers).flatten) s).mp h)
    have hle : s.length ≤ ((caps.map Capture.toMatchers).flatten).length :=
      List.drop_eq_nil_iff.mp h1.2.2.symm
    exact ⟨(le_antisymm hle h1.1).trans hlen, h1.2.1⟩
  · rintro ⟨h1, h2⟩
    apply (specMatches_none_iff ((caps.map Capture.toMatchers).flatten) s).mpr
    apply (consumeElems_eq_some_iff ((caps.map Capture.toMatchers).flatten) s []).mpr
    have hfs : ((caps.map Capture.toMatchers).flatten).length = s.length := by
      rw [hlen, h1]
    refine ⟨le_of_eq hfs, h2, ?_⟩
    rw [hfs, List.drop_length]

/-- C1 witness: the pattern `"ab"x2` with no tail matches the byte sequence
97,98,97,98, which therefore has length `totalWeight` and agrees pointwise. -/
theorem no_end_capture_exact_length_witness :
    ([97, 98, 97, 98] : List Nat).length = totalWeight [Capture.Str "ab" 2] ∧
    pointwise (lowerMacroInput ⟨[Capture.Str "ab" 2], none⟩).elems [97, 98, 97, 98] :=
  (no_end_capture_exact_length [Capture.Str "ab" 2] [97, 98, 97, 98]).2.2.mp rfl

/-- C2: a byte-string literal of k bytes with repetition count r lowers to
exactly r consecutive copies of its byte run (k·r fixed matchers, in
original order), likewise a text-string literal over its UTF-8 bytes; in
particular `"ab"x3` expands to the six matchers a,b,a,b,a,b. -/
theorem repetition_expansion (bs : List Nat) (t : String) (reps : Nat) :
    Capture.toMatchers (Capture.ByteStr bs reps) =
      ((List.replicate reps bs).flatten).map ElemMatcher.fixed ∧
    (Capture.toMatchers (Capture.ByteStr bs reps)).length = bs.length * reps ∧
    Capture.toMatchers (Capture.Str t reps) =
      ((List.replicate reps (strBytes t)).flatten).map ElemMatcher.fixed ∧
    (Capture.toMatchers (Capture.Str t reps)).length = (strBytes t).length * reps ∧
    Capture.toMatchers (Capture.Str "ab" 3) =
      [ElemMatcher.fixed 97, ElemMatcher.fixed 98, ElemMatcher.fixed 97,
        ElemMatcher.fixed 98, ElemMatcher.fixed 97, ElemMatcher.fixed 98] :=
  ⟨rfl, length_toMatchers (Capture.ByteStr bs reps), rfl,
    length_toMatchers (Capture.Str t reps), rfl⟩

/-- C3: the suffix rule of `process_suffix`: empty suffix yields count 1; a
suffix starting with `x` yields the integer value of the remainder, or the
exact error message naming the remainder when it does not parse; any other
non-empty suffix yields the fixed error message. -/
theorem suffix_rule (suffix : List Char) :
    (suffix = [] → process_suffix suffix = .ok 1) ∧
    (suffix.head? = some 'x' →
      (∀ n, parseUsize (suffix.drop 1) = some n → process_suffix suffix = .ok n) ∧
      (parseUsize (suffix.drop 1) = none →
        process_suffix suffix =
          .error ("error parsing " ++ String.mk (suffix.drop 1) ++ " into an integer"))) ∧
    (suffix ≠ [] → suffix.head? ≠ some 'x' →
      process_suffix suffix = .error ("suffix did not start with `x`")) := by
  cases suffix with
  | nil => simp [process_suffix]
  | cons c rest =>
    refine ⟨by simp, ?_, ?_⟩
    · intro hc
      simp only [List.head?_cons, Option.some.injEq] at hc
      subst hc
      constructor
      · intro n hn
        simp only [List.drop_succ_cons, List.drop_zero] at hn
        simp [process_suffix, hn]
      · intro hn
        simp only [List.drop_succ_cons, List.drop_zero] at hn
        simp [process_suffix, hn]
    · intro _ hc
      have hne : c ≠ 'x' := by
        intro h
        exact hc (by simp [h])
      simp [process_suffix, hne]

/-- C3 witness: suffix `x3` yields repetition count 3. -/
theorem suffix_rule_witness :
    parseUsize ['3'] = some 3 ∧ process_suffix ['x', '3'] = .ok 3 :=
  ⟨rfl, ((suffix_rule ['x', '3']).2.1 rfl).1 3 rfl⟩

/-- C4 counterexample: the suffix `x0` on the byte-string literal `b"hi"`
does not fail; the capture parser succeeds and produces a Capture with
repetitions = 0, refuting both that `x0` is a suffix error and that every
successfully parsed Capture has repetitions ≥ 1. -/
theorem x0_accepted :
    parseCapture [Tok.litByteStr [104, 105] ['x', '0']] =
      CapResult.ok (Capture.ByteStr [104, 105] 0) [] ∧ ¬ (1 : Nat) ≤ 0 :=
  ⟨rfl, by decide⟩

/-- C4 (amended): a literal whose suffix `process_suffix` accepts with count
n — including `x0`, accepted with n = 0 — parses to a Capture whose
repetitions equal n; repetitions of a parsed Capture may therefore be 0. -/
theorem suffix_count_is_parsed_value (bs : List Nat) (suf : List Char) (n : Nat)
    (rest : List Tok) (h : process_suffix suf = Except.ok n) :
    parseCapture (Tok.litByteStr bs suf :: rest) =
      CapResult.ok (Capture.ByteStr bs n) rest := by
  simp [parseCapture, chain, capOrder, peekClass, parseAt, suffixAttempt, h]

/-- C4 witness: `b"hj"x0` parses to a ByteStr capture with 0 repetitions. -/
theorem suffix_count_is_parsed_value_witness :
    process_suffix ['x', '0'] = Except.ok 0 ∧
    parseCapture [Tok.litByteStr [104, 106] ['x', '0']] =
      CapResult.ok (Capture.ByteStr [104, 106] 0) [] :=
  ⟨rfl, suffix_count_is_parsed_value [104, 106] ['x', '0'] 0 [] rfl⟩

/-- C5: a pattern ending in an EndCapture lowers to the fixed-position
matchers followed by exactly the corresponding tail matcher; it matches a
sequence iff the fixed-length prefix matches, and on a match a named
EndCapture binds exactly the remaining (possibly empty) suffix. -/
theorem end_capture_tail (caps : List Capture) (e : EndCapture) (s : List Nat) :
    (lowerMacroInput ⟨caps, some e⟩).tail = some (EndCapture.toTail e) ∧
    (specMatches (lowerMacroInput ⟨caps, some e⟩) s = true ↔
      (lowerMacroInput ⟨caps, some e⟩).elems.length ≤ s.length ∧
      pointwise (lowerMacroInput ⟨caps, some e⟩).elems s) ∧
    (∀ n, e = EndCapture.Ident n →
      specMatches (lowerMacroInput ⟨caps, some e⟩) s = true →
      tailBinding (lowerMacroInput ⟨caps, some e⟩) s =
        some (n, s.drop (lowerMacroInput ⟨caps, some e⟩).elems.length)) := by
  refine ⟨rfl, specMatches_some_iff ((caps.map Capture.toMatchers).flatten)
    (EndCapture.toTail e) s, ?_⟩
  rintro n rfl h
  have h2 := (specMatches_some_iff ((caps.map Capture.toMatchers).flatten)
    (TailMatcher.named n) s).mp h
  have h3 : consumeElems ((caps.map Capture.toMatchers).flatten) s
      = some (s.drop ((caps.map Capture.toMatchers).flatten).length) :=
    (consumeElems_eq_some_iff ((caps.map Capture.toMatchers).flatten) s _).mpr
      ⟨h2.1, h2.2, rfl⟩
  show (consumeElems ((caps.map Capture.toMatchers).flatten) s).map (fun r => (n, r)) = _
  rw [h3]
  rfl

/-- C5 witness: the pattern `b'a' [r]` matches 97,98 and binds the tail
`r` to the remainder 98. -/
theorem end_capture_tail_witness :
    specMatches (lowerMacroInput ⟨[Capture.Byte 97 1], some (EndCapture.Ident "r")⟩)
      [97, 98] = true ∧
    tailBinding (lowerMacroInput ⟨[Capture.Byte 97 1], some (EndCapture.Ident "r")⟩)
      [97, 98] = some ("r", [98]) :=
  ⟨rfl, (end_capture_tail [Capture.Byte 97 1] (EndCapture.Ident "r") [97, 98]).2.2
    "r" rfl rfl⟩

/-- C6: the empty token sequence expands, without error, to the empty
pattern (no captures, no tail), whose specification matches exactly the
zero-length sequence; the parser also accepts the empty stream. -/
theorem empty_input (s : List Nat) :
    strmatch [] = Expansion.ok ⟨[], none⟩ ∧
    parseMacroInput [] = MIResult.ok ⟨[], none⟩ [] [] ∧
    (specMatches ⟨[], none⟩ s = true ↔ s = []) := by
  refine ⟨rfl, rfl, ?_⟩
  rw [specMatches_none_iff]
  simp [consumeElems]

/-- C6 witness: the empty specification matches the empty sequence. -/
theorem empty_input_witness : specMatches ⟨[], none⟩ ([] : List Nat) = true :=
  (empty_input []).2.2.mpr rfl

/-- C8: the capture parser agrees, on every token stream, with the parser
that probes the lexical classes in the specification's priority order
(byte-string, string, byte, char, identifier, wildcard); the classes are
mutually exclusive, so the selected interpretation is identical. -/
theorem capture_priority_order (toks : List Tok) :
    parseCapture toks = parseCaptureSpecOrder toks := by
  cases toks with
  | nil => rfl
  | cons t ts => cases t <;> rfl

/-- C9: when an attempt to parse one Capture returns a recoverable error
(rather than aborting), the remaining stream it reports is exactly the
original input — no tokens were consumed. -/
theorem err_preserves_input (toks rest : List Tok)
    (h : parseCapture toks = CapResult.err rest) : rest = toks := by
  cases toks with
  | nil =>
    simp only [parseCapture, CapResult.err.injEq] at h
    exact h.symm
  | cons t ts =>
    simp only [parseCapture] at h
    rcases hc : chain capOrder t with c | _ | m <;> rw [hc] at h <;> simp_all

/-- C9 witness: on a stream headed by an unrecognized token the parser
errors and reports the stream unchanged. -/
theorem err_preserves_input_witness :
    parseCapture [Tok.other] = CapResult.err [Tok.other] ∧
    ([Tok.other] : List Tok) = [Tok.other] :=
  ⟨rfl, err_preserves_input [Tok.other] [Tok.other] rfl⟩

/-- C7: once the capture loop stops with leftover `rest`, the whole
expansion succeeds exactly when `rest` is empty (then the pattern has no
EndCapture) or `rest` is exactly one bracket group containing exactly an
identifier or a wildcard (then that is the EndCapture); any other trailing
content, or extra content inside the bracket group, makes the expansion an
error. -/
theorem bracketed_tail_grammar (toks : List Tok) (caps : List Capture) (rest : List Tok)
    (h : captureLoop toks = Except.ok (caps, rest)) :
    (rest = [] → strmatch toks = Expansion.ok (lowerMacroInput ⟨caps, none⟩)) ∧
    (∀ n, rest = [Tok.bracket [Tok.ident n]] →
      strmatch toks = Expansion.ok (lowerMacroInput ⟨caps, some (EndCapture.Ident n)⟩)) ∧
    (rest = [Tok.bracket [Tok.underscore]] →
      strmatch toks = Expansion.ok (lowerMacroInput ⟨caps, some EndCapture.Underscore⟩)) ∧
    ((∃ spec, strmatch toks = Expansion.ok spec) ↔
      (rest = [] ∨ (∃ n, rest = [Tok.bracket [Tok.ident n]]) ∨
        rest = [Tok.bracket [Tok.underscore]])) := by
  cases toks with
  | nil =>
    simp only [captureLoop, Except.ok.injEq, Prod.mk.injEq] at h
    obtain ⟨hc, hr⟩ := h
    subst hc
    subst hr
    refine ⟨fun _ => rfl, ?_, ?_, ?_⟩
    · intro n hn
      simp at hn
    · intro hn
      simp at hn
    · exact ⟨fun _ => Or.inl rfl, fun _ => ⟨⟨[], none⟩, rfl⟩⟩
  | cons t ts =>
    rcases rest with _ | ⟨r0, rest2⟩
    · have hpm : parseMacroInput (t :: ts) = MIResult.ok ⟨caps, none⟩ [] [] := by
        simp [parseMacroInput, h]
      have hs : strmatch (t :: ts) = Expansion.ok (lowerMacroInput ⟨caps, none⟩) := by
        rw [strmatch_cons, hpm]
      refine ⟨fun _ => hs, ?_, ?_, ?_⟩
      · intro n hn
        simp at hn
      · intro hn
        simp at hn
      · exact ⟨fun _ => Or.inl rfl, fun _ => ⟨_, hs⟩⟩
    · cases r0
      case bracket inner =>
        cases hin : parseEndCapture inner with
        | none =>
          have hpm : parseMacroInput (t :: ts) = MIResult.err := by
            simp [parseMacroInput, h, hin]
          have hs : strmatch (t :: ts) = Expansion.err := by
            rw [strmatch_cons, hpm]
          refine ⟨?_, ?_, ?_, ?_⟩
          · intro hn
            simp at hn
          · intro n hn
            obtain ⟨h1, h2⟩ : inner = [Tok.ident n] ∧ rest2 = [] := by simpa using hn
            subst h1
            simp [parseEndCapture] at hin
          · intro hn
            obtain ⟨h1, h2⟩ : inner = [Tok.underscore] ∧ rest2 = [] := by simpa using hn
            subst h1
            simp [parseEndCapture] at hin
          · constructor
            · rintro ⟨spec, hspec⟩
              rw [hs] at hspec
              cases hspec
            · rintro (hn | ⟨n, hn⟩ | hn)
              · simp at hn
              · obtain ⟨h1, h2⟩ : inner = [Tok.ident n] ∧ rest2 = [] := by simpa using hn
                subst h1
                simp [parseEndCapture] at hin
              · obtain ⟨h1, h2⟩ : inner = [Tok.underscore] ∧ rest2 = [] := by simpa using hn
                subst h1
                simp [parseEndCapture] at hin
        | some p =>
          obtain ⟨e, ir⟩ := p
          have hpm : parseMacroInput (t :: ts) = MIResult.ok ⟨caps, some e⟩ rest2 ir := by
            simp [parseMacroInput, h, hin]
          rcases rest2 with _ | ⟨r1, rest3⟩
          · rcases ir with _ | ⟨i1, ir2⟩
            · have hs : strmatch (t :: ts)
                  = Expansion.ok (lowerMacroInput ⟨caps, some e⟩) := by
                rw [strmatch_cons, hpm]
              have hshape := (parseEndCapture_eq_some inner e []).mp hin
              refine ⟨?_, ?_, ?_, ?_⟩
              · intro hn
                simp at hn
              · intro n hn
                obtain ⟨h1, -⟩ : inner = [Tok.ident n] ∧ True := by simpa using hn
                subst h1
                have he : e = EndCapture.Ident n := by
                  simpa [parseEndCapture] using hin.symm
                rw [hs, he]
              · intro hn
                obtain h1 : inner = [Tok.underscore] := by simpa using hn
                subst h1
                have he : e = EndCapture.Underscore := by
                  simpa [parseEndCapture] using hin.symm
                rw [hs, he]
              · refine ⟨fun _ => ?_, fun _ => ⟨_, hs⟩⟩
                rcases hshape with ⟨h1, -⟩ | ⟨n, h1, -⟩
                · exact Or.inr (Or.inr (by rw [h1]))
                · exact Or.inr (Or.inl ⟨n, by rw [h1]⟩)
            · have hs : strmatch (t :: ts) = Expansion.err := by
                rw [strmatch_cons, hpm]
              refine ⟨?_, ?_, ?_, ?_⟩
              · intro hn
                simp at hn
              · intro n hn
                obtain ⟨h1, -⟩ : inner = [Tok.ident n] ∧ True := by simpa using hn
                subst h1
                simp [parseEndCapture] at hin
              · intro hn
                obtain h1 : inner = [Tok.underscore] := by simpa using hn
                subst h1
                simp [parseEndCapture] at hin
              · constructor
                · rintro ⟨spec, hspec⟩
                  rw [hs] at hspec
                  cases hspec
                · rintro (hn | ⟨n, hn⟩ | hn)
                  · simp at hn
                  · obtain ⟨h1, -⟩ : inner = [Tok.ident n] ∧ True := by simpa using hn
                    subst h1
                    simp [parseEndCapture] at hin
                  · obtain h1 : inner = [Tok.underscore] := by simpa using hn
                    subst h1
                    simp [parseEndCapture] at hin
          · have hs : strmatch (t :: ts) = Expansion.err := by
              rw [strmatch_cons, hpm]
            refine ⟨?_, ?_, ?_, ?_⟩
            · intro hn
              simp at hn
            · intro n hn
              simp at hn
            · intro hn
              simp at hn
            · constructor
              · rintro ⟨spec, hspec⟩
                rw [hs] at hspec
                cases hspec
              · rintro (hn | ⟨n, hn⟩ | hn) <;> simp at hn
      all_goals
        have hpm : parseMacroInput (t :: ts) = MIResult.err := by
          simp [parseMacroInput, h]
        have hs : strmatch (t :: ts) = Expansion.err := by
          rw [strmatch_cons, hpm]
        refine ⟨fun hn => absurd hn (by simp), fun n hn => absurd hn (by simp),
          fun hn => absurd hn (by simp), ?_, ?_⟩
        · rintro ⟨spec, hspec⟩
          rw [hs] at hspec
          cases hspec
        · rintro (hn | ⟨n, hn⟩ | hn) <;> simp at hn

/-- C7 witness: the stream `b"a" [r]` — one capture then a bracketed
identifier — expands successfully. -/
theorem bracketed_tail_grammar_witness :
    captureLoop [Tok.litByteStr [97] [], Tok.bracket [Tok.ident "r"]] =
      Except.ok ([Capture.ByteStr [97] 1], [Tok.bracket [Tok.ident "r"]]) ∧
    ∃ spec, strmatch [Tok.litByteStr [97] [], Tok.bracket [Tok.ident "r"]] =
      Expansion.ok spec :=
  ⟨rfl, (bracketed_tail_grammar [Tok.litByteStr [97] [], Tok.bracket [Tok.ident "r"]]
      [Capture.ByteStr [97] 1] [Tok.bracket [Tok.ident "r"]] rfl).2.2.2.mpr
    (Or.inr (Or.inl ⟨"r", rfl⟩))⟩

/-- C10: a character-literal capture with repetition count r lowers to
exactly r fixed matchers, each carrying the code point reduced modulo 256;
so U+03BB (955) yields the single byte 187, while the string literal with
the same character yields its two UTF-8 bytes 206,187. -/
theorem char_truncation (cp reps : Nat) :
    Capture.toMatchers (Capture.Char cp reps) =
      List.replicate reps (ElemMatcher.fixed (cp % 256)) ∧
    (Capture.toMatchers (Capture.Char cp reps)).length = reps ∧
    Capture.toMatchers (Capture.Char 955 1) = [ElemMatcher.fixed 187] ∧
    Capture.toMatchers (Capture.Str "λ" 1) =
      [ElemMatcher.fixed 206, ElemMatcher.fixed 187] :=
  ⟨rfl, length_toMatchers (Capture.Char cp reps), rfl, rfl⟩

end Strmatch
